import Mathlib

/-!
Verification of the `get-papers-list` pipeline (`src/get_papers_list.py`).

The Python source is shallowly embedded below.  Strings are Lean `String`s
(lists of characters); network I/O is replaced by explicit oracles:

* the PubMed efetch endpoint becomes `db : String → Option Article`
  (`none` models a response with no `PubmedArticle` element, which the
  enrichment loop silently skips);
* the PubMed esearch endpoint becomes
  `remote : String → Nat → List String` (query and `retmax` to id list);
* CPython's unspecified `set` iteration order becomes an oracle
  `oracle : List String → List String` constrained by `SetOrder` to
  enumerate each element of its input exactly once.

`ElementTree.findtext(path, default=d)` returns the element's text when the
element exists (the empty string when the element is empty) and `d` when the
element is absent; an element is therefore modelled as `Option String` and
`findtext` as `findtextD`.
-/

/-- Model of `xml.etree.ElementTree.findtext`: the element's text when the
element is present, the default otherwise. -/
def findtextD (t : Option String) (d : String) : String := t.getD d

/-- Model of Python `str.lower()` (per-character lowercasing; the inputs of
interest are ASCII, where `Char.toLower` agrees with Python). -/
def pylower (l : List Char) : List Char := l.map Char.toLower

/-- Model of Python `str.strip()`: remove whitespace from both ends. -/
def pystrip (l : List Char) : List Char :=
  ((l.dropWhile Char.isWhitespace).reverse.dropWhile Char.isWhitespace).reverse

/-- The keyword list of `is_company_affiliation`
(`src/get_papers_list.py` line 91). -/
def academic_keywords : List String :=
  ["university", "college", "institute", "school", "hospital", "clinic",
   "center", "centre"]

/-- `is_company_affiliation` (lines 89-92): lowercase the affiliation and
return the negation of "some keyword occurs as a substring". -/
def is_company_affiliation (aff : String) : Bool :=
  let aff_lower := pylower aff.data
  !(academic_keywords.any fun word => decide (word.data <:+: aff_lower))

/-- Python `str.split(sep)` for a one-character separator: `splitComma l`
is `l` split at every comma; the result is never empty. -/
def splitComma : List Char → List (List Char)
  | [] => [[]]
  | c :: cs =>
    if c = ',' then [] :: splitComma cs
    else
      match splitComma cs with
      | [] => [[c]]
      | s :: ss => (c :: s) :: ss

/-- `extract_company_name` (lines 94-96): `aff.split(",")[0]`, the first
comma-separated segment (the whole string when no comma occurs), unmodified. -/
def extract_company_name (aff : String) : String :=
  String.mk ((splitComma aff.data).headD [])

/-- The character class `[a-zA-Z0-9._%+-]` of the email regular expression
(line 99), i.e. the local part. -/
def isAchar (c : Char) : Bool :=
  c.isAlpha || c.isDigit || c == '.' || c == '_' || c == '%' || c == '+' || c == '-'

/-- The character class `[a-zA-Z0-9.-]` of the email regular expression
(the domain part before the final dot). -/
def isBchar (c : Char) : Bool :=
  c.isAlpha || c.isDigit || c == '.' || c == '-'

/-- The character class `[a-zA-Z]` of the email regular expression
(the final component, `{2,}`). -/
def isCchar (c : Char) : Bool := c.isAlpha

/-- One backtracking attempt of the engine after the `@`: consume `j`
characters with `[a-zA-Z0-9.-]+`, require a literal `.` at index `j`, then
require the greedy `[a-zA-Z]{2,}` tail to have length at least two.  Returns
the part of the match after the `@` on success. -/
def tryDot (rest : List Char) (j : Nat) : Option (List Char) :=
  if rest[j]? = some '.' then
    if 2 ≤ ((rest.drop (j + 1)).takeWhile isCchar).length then
      some (rest.take (j + 1) ++ (rest.drop (j + 1)).takeWhile isCchar)
    else none
  else none

/-- Backtracking loop over the dot position, greedily from `j` down to `1`
(Python's `re` tries the longest `[a-zA-Z0-9.-]+` first). -/
def tryDots (rest : List Char) : Nat → Option (List Char)
  | 0 => none
  | j + 1 =>
    match tryDot rest (j + 1) with
    | some m => some m
    | none => tryDots rest j

/-- One attempt of `re.search` at a fixed start position: the `[a-zA-Z0-9._%+-]+`
run must be non-empty and be followed immediately by `@` (no shorter run can
reach an `@`, since `@` is not in the class), after which the dot positions
are tried greedily.  Returns the full match on success. -/
def matchFrom (s : List Char) : Option (List Char) :=
  if (s.takeWhile isAchar).isEmpty then none
  else
    match s.dropWhile isAchar with
    | [] => none
    | c :: rest =>
      if c = '@' then
        match tryDots rest ((rest.takeWhile isBchar).length - 1) with
        | some tail => some (s.takeWhile isAchar ++ '@' :: tail)
        | none => none
      else none

/-- `re.search` over the whole string: try each start position from the left
and return the first successful match. -/
def findEmail : List Char → Option (List Char)
  | [] => none
  | c :: cs =>
    match matchFrom (c :: cs) with
    | some m => some m
    | none => findEmail cs

/-- `extract_email` (lines 98-100): first match of
`[a-zA-Z0-9._%+-]+@[a-zA-Z0-9.-]+\.[a-zA-Z]{2,}` in the affiliation, or the
sentinel `"Not found"`. -/
def extract_email (aff : String) : String :=
  match findEmail aff.data with
  | some m => String.mk m
  | none => "Not found"

/-- The publication-date computation of `fetch_details` (lines 45-47):
`findtext(".//PubDate/Year", default="Unknown Year")`, then, only when that
result is falsy (the empty string), `findtext(".//PubDate/MedlineDate",
default="")`. -/
def pub_date (year medlineDate : Option String) : String :=
  let pd := findtextD year "Unknown Year"
  if pd = "" then findtextD medlineDate "" else pd

/-- The publication-date fallback as the specification words it: the
structured year field when present, else the raw MedlineDate field, else the
sentinel `"Unknown Year"`.  Stated only to be compared with `pub_date`. -/
def pub_date_spec (year medlineDate : Option String) : String :=
  match year with
  | some y => y
  | none =>
    match medlineDate with
    | some m => m
    | none => "Unknown Year"

/-- One `<Author>` element: `findtext` of the affiliation, last name and
forename, each defaulting to `""` (lines 55-57). -/
structure Author where
  aff : String
  lname : String
  fname : String
deriving DecidableEq

/-- One `<PubmedArticle>` element, as read by lines 44-49. -/
structure Article where
  title : Option String
  year : Option String
  medlineDate : Option String
  authors : List Author
deriving DecidableEq

/-- `f"{fname} {lname}".strip()` (line 58). -/
def fullname (a : Author) : String :=
  String.mk (pystrip (a.fname.data ++ ' ' :: a.lname.data))

/-- The per-record mutable locals of the author loop (lines 50-52). -/
structure LoopState where
  non_academic_authors : List String
  company_affiliations : List String
  email : String
deriving DecidableEq

/-- Initial loop state: empty lists, `email = "Not found"` (lines 50-52). -/
def initState : LoopState :=
  { non_academic_authors := [], company_affiliations := [], email := "Not found" }

/-- Lines 61-63: if the classifier says non-academic, append the display
name and the extracted company name. -/
def procClass (st : LoopState) (author : Author) : LoopState :=
  if is_company_affiliation author.aff then
    { st with
      non_academic_authors := st.non_academic_authors ++ [fullname author],
      company_affiliations :=
        st.company_affiliations ++ [extract_company_name author.aff] }
  else st

/-- Lines 64-65: if the affiliation contains an `@` and no email has been
recorded yet, record the result of `extract_email`. -/
def procEmail (st1 : LoopState) (author : Author) : LoopState :=
  if author.aff.data.contains '@' ∧ st1.email = "Not found" then
    { st1 with email := extract_email author.aff }
  else st1

/-- The body of `for author in authors` (lines 54-65).  `if aff:` is Python
truthiness, i.e. `aff ≠ ""`; `"@" in aff` is substring membership of the
one-character string `"@"`; the classifier step runs before the email step,
exactly as in the source. -/
def processAuthor (st : LoopState) (author : Author) : LoopState :=
  if author.aff ≠ "" then procEmail (procClass st author) author
  else st

/-- Python `x or "None"`: the empty string is falsy. -/
def orStr (s : String) : String := if s = "" then "None" else s

/-- The output row built at lines 67-74, with the dictionary keys
`PubmedID`, `Title`, `Publication Date`, `Non-academic Author(s)`,
`Company Affiliation(s)`, `Corresponding Author Email` in insertion order. -/
structure Paper where
  pubmedID : String
  title : String
  pubDate : String
  nonAcademicAuthors : String
  companyAffiliations : String
  email : String
deriving DecidableEq

/-- A valid iteration order of a CPython `set` built from a list: each
element of the list appears exactly once, in an order the language leaves
unspecified (it depends on the per-process string hash randomization). -/
def SetOrder (o : List String → List String) : Prop :=
  ∀ l, (o l).Nodup ∧ ∀ s, s ∈ o l ↔ s ∈ l

/-- The body of the loop of `fetch_details` for one resolved article
(lines 44-74): run the author loop, then assemble the row.
`", ".join(set(company_affiliations))` iterates the set in the order given
by the `oracle`. -/
def enrich (oracle : List String → List String) (pmid : String)
    (article : Article) : Paper :=
  { pubmedID := pmid
    title := findtextD article.title "No Title"
    pubDate := pub_date article.year article.medlineDate
    nonAcademicAuthors := orStr (String.intercalate ", "
      (article.authors.foldl processAuthor initState).non_academic_authors)
    companyAffiliations := orStr (String.intercalate ", "
      (oracle (article.authors.foldl processAuthor initState).company_affiliations))
    email := (article.authors.foldl processAuthor initState).email }

/-- `fetch_details` (lines 24-77): one fetch per identifier in order;
identifiers whose response has no `PubmedArticle` element are skipped
(lines 41-42); every other identifier contributes exactly one row. -/
def fetch_details (db : String → Option Article)
    (oracle : List String → List String) (pubmed_ids : List String) : List Paper :=
  pubmed_ids.filterMap fun pmid => (db pmid).map (enrich oracle pmid)

/-- CSV field quoting of Python's `csv` module with the default
`QUOTE_MINIMAL` dialect: quote a field containing the delimiter, the quote
character or a line-break character, doubling embedded quote characters. -/
def csvQuote (s : String) : String :=
  if s.data.any (fun c => c == ',' || c == '"' || c == '\r' || c == '\n') then
    "\"" ++ String.mk (s.data.foldr
      (fun c acc => if c = '"' then '"' :: '"' :: acc else c :: acc) []) ++ "\""
  else s

/-- One CSV row with the default `\r\n` line terminator. -/
def csvRow (cells : List String) : String :=
  String.intercalate "," (cells.map csvQuote) ++ "\r\n"

/-- The header cells, i.e. the keys of the row dictionary in insertion
order (`papers[0].keys()`, line 83). -/
def fieldNames : List String :=
  ["PubmedID", "Title", "Publication Date", "Non-academic Author(s)",
   "Company Affiliation(s)", "Corresponding Author Email"]

/-- The cells of one row, in the same key order. -/
def paperCells (p : Paper) : List String :=
  [p.pubmedID, p.title, p.pubDate, p.nonAcademicAuthors,
   p.companyAffiliations, p.email]

/-- The full file contents written by `csv.DictWriter`:
header row then one row per paper. -/
def renderCsv (papers : List Paper) : String :=
  csvRow fieldNames ++ String.join (papers.map fun p => csvRow (paperCells p))

/-- The error raised by `papers[0]` on an empty list. -/
inductive CsvError where
  | indexError
deriving DecidableEq

/-- `save_to_csv` (lines 80-85).  The first component is the contents of the
output file after the call (`some c` means the file exists on disk holding
`c`; `none` would mean it was never created): `open(filename, mode='w')`
creates or truncates the file *before* `papers[0]` is evaluated, so on an
empty input the file exists and is empty even though the `IndexError`
propagates.  The second component is the outcome. -/
def save_to_csv (papers : List Paper) : Option String × Except CsvError Unit :=
  match papers with
  | [] => (some "", Except.error CsvError.indexError)
  | _ :: _ => (some (renderCsv papers), Except.ok ())

/-- `search_pubmed` (lines 8-20) with the remote esearch endpoint abstracted:
the function returns `data["esearchresult"]["idlist"]` for the requested
query and `retmax`; the `retmax` parameter defaults to `20`. -/
def search_pubmed (remote : String → Nat → List String) (query : String)
    (retmax : Nat := 20) : List String :=
  remote query retmax

/-- The dataflow of `main` (lines 105-125): search with the default
`retmax` (line 117 passes no second argument), then fetch, producing the
rows handed to `save_to_csv`. -/
def main_papers (remote : String → Nat → List String)
    (db : String → Option Article) (oracle : List String → List String)
    (query : String) : List Paper :=
  fetch_details db oracle (search_pubmed remote query)

/-- A substring fitting the email regular expression
`[a-zA-Z0-9._%+-]+@[a-zA-Z0-9.-]+\.[a-zA-Z]{2,}`: a non-empty local part,
an `@`, a non-empty domain part, a literal dot, then at least two letters. -/
def EmailPattern (m : List Char) : Prop :=
  ∃ a b c, m = a ++ '@' :: (b ++ '.' :: c) ∧
    a ≠ [] ∧ (∀ x ∈ a, isAchar x) ∧
    b ≠ [] ∧ (∀ x ∈ b, isBchar x) ∧
    2 ≤ c.length ∧ (∀ x ∈ c, isCchar x)

/-- Author guard under which the loop records an email: non-empty
affiliation, an `@` present, and the extraction actually succeeding. -/
def emailCandidate (a : Author) : Bool :=
  (a.aff != "") && a.aff.data.contains '@' && (extract_email a.aff != "Not found")

/-- A concrete valid `set` iteration order: first occurrences, in insertion
order (what CPython happens to do for small int-like hashes; used here only
as one admissible order). -/
def dedupOracle : List String → List String := fun l => l.dedup

/-- A second valid `set` iteration order: first occurrences, reversed. -/
def revDedupOracle : List String → List String := fun l => l.dedup.reverse

/-- A sample enriched row used in witnesses. -/
def demoPaper : Paper :=
  { pubmedID := "1", title := "T", pubDate := "2024",
    nonAcademicAuthors := "None", companyAffiliations := "None",
    email := "Not found" }

/-- First author of the specification's two-author test record. -/
def demoAuthor1 : Author :=
  { aff := "City General Hospital", lname := "Smith", fname := "John" }

/-- Second author of the specification's two-author test record. -/
def demoAuthor2 : Author :=
  { aff := "Acme Biotech Inc, jane@acme.com", lname := "Doe", fname := "Jane" }

/-- The specification's two-author test record (SPEC 8, sixth bullet). -/
def demoArticle : Article :=
  { title := some "T", year := some "2024", medlineDate := none,
    authors := [demoAuthor1, demoAuthor2] }

/-- The row the pipeline builds for `demoArticle`. -/
def demoEnriched : Paper :=
  { pubmedID := "42", title := "T", pubDate := "2024",
    nonAcademicAuthors := "Jane Doe",
    companyAffiliations := "Acme Biotech Inc",
    email := "jane@acme.com" }

/-- A remote data set resolving "42" to the two-author test record. -/
def demoDb : String → Option Article :=
  fun i => if i = "42" then some demoArticle else none

/-- A record with two distinct company affiliations (used to exhibit the
dependence of the joined company field on the set iteration order). -/
def cexArticle : Article :=
  { title := some "T", year := some "2024", medlineDate := none,
    authors := [{ aff := "Acme Inc", lname := "A", fname := "A" },
                { aff := "Zeta Ltd", lname := "B", fname := "B" }] }

/-- A remote data set resolving every identifier to `cexArticle`. -/
def cexDb : String → Option Article := fun _ => some cexArticle

/-- Agreement of two enriched rows up to the order of the joined company
names: every field coincides except that the Company Affiliation(s) fields
are comma-joins of two permutations of the same name list. -/
def PaperSim (p q : Paper) : Prop :=
  p.pubmedID = q.pubmedID ∧ p.title = q.title ∧ p.pubDate = q.pubDate ∧
  p.nonAcademicAuthors = q.nonAcademicAuthors ∧ p.email = q.email ∧
  ∃ l1 l2 : List String, l1.Perm l2 ∧
    p.companyAffiliations = orStr (String.intercalate ", " l1) ∧
    q.companyAffiliations = orStr (String.intercalate ", " l2)

/-! ## List helper lemmas -/

lemma takeWhile_all_append {α : Type} (p : α → Bool) :
    ∀ (a r : List α), (∀ x ∈ a, p x = true) →
      (a ++ r).takeWhile p = a ++ r.takeWhile p
  | [], _, _ => rfl
  | c :: cs, r, h => by
    have hc : p c = true := h c (by simp)
    simp only [List.cons_append, List.takeWhile_cons, hc, if_true]
    rw [takeWhile_all_append p cs r (fun x hx => h x (by simp [hx]))]

lemma dropWhile_all_append {α : Type} (p : α → Bool) :
    ∀ (a r : List α), (∀ x ∈ a, p x = true) →
      (a ++ r).dropWhile p = r.dropWhile p
  | [], _, _ => rfl
  | c :: cs, r, h => by
    have hc : p c = true := h c (by simp)
    simp only [List.cons_append, List.dropWhile_cons, hc, if_true]
    exact dropWhile_all_append p cs r (fun x hx => h x (by simp [hx]))

lemma mem_takeWhile_pred {α : Type} (p : α → Bool) :
    ∀ (l : List α) (x : α), x ∈ l.takeWhile p → p x = true
  | [], x, hx => absurd hx (List.not_mem_nil x)
  | c :: cs, x, hx => by
    rw [List.takeWhile_cons] at hx
    by_cases hc : p c = true
    · rw [if_pos hc] at hx
      rcases List.mem_cons.mp hx with h | h
      · rwa [h]
      · exact mem_takeWhile_pred p cs x h
    · rw [if_neg hc] at hx
      exact absurd hx (List.not_mem_nil x)

lemma length_le_takeWhile_append {α : Type} (p : α → Bool) (a r : List α)
    (h : ∀ x ∈ a, p x = true) : a.length ≤ ((a ++ r).takeWhile p).length := by
  rw [takeWhile_all_append p a r h]
  simp

lemma mem_take_pred {α : Type} (p : α → Bool) :
    ∀ (l : List α) (j : Nat), j ≤ (l.takeWhile p).length →
      ∀ x ∈ l.take j, p x = true
  | _, 0, _, x, hx => by simp at hx
  | [], _ + 1, _, x, hx => by simp at hx
  | c :: cs, j + 1, hj, x, hx => by
    rw [List.takeWhile_cons] at hj
    by_cases hc : p c = true
    · rw [if_pos hc] at hj
      rw [List.take_succ_cons] at hx
      rcases List.mem_cons.mp hx with h | h
      · rwa [h]
      · exact mem_take_pred p cs j (by simpa using hj) x h
    · rw [if_neg hc] at hj
      simp at hj

lemma getElem?_append_len {α : Type} :
    ∀ (l : List α) (x : α) (r : List α), (l ++ x :: r)[l.length]? = some x
  | [], _, _ => by simp
  | c :: cs, x, r => by
    show (c :: (cs ++ x :: r))[cs.length + 1]? = some x
    rw [List.getElem?_cons_succ]
    exact getElem?_append_len cs x r

lemma splitComma_ne_nil : ∀ l : List Char, splitComma l ≠ []
  | [] => by simp [splitComma]
  | c :: cs => by
    by_cases hc : c = ','
    · simp [splitComma, hc]
    · simp only [splitComma, hc, if_false]
      cases splitComma cs <;> simp

lemma splitComma_head :
    ∀ l : List Char, (splitComma l).headD [] = l.takeWhile (fun c => c != ',')
  | [] => rfl
  | c :: cs => by
    by_cases hc : c = ','
    · subst hc
      simp [splitComma, List.takeWhile_cons]
    · cases hsc : splitComma cs with
      | nil => exact absurd hsc (splitComma_ne_nil cs)
      | cons s ss =>
        have hih := splitComma_head cs
        rw [hsc] at hih
        simp only [List.headD_cons] at hih
        simp [splitComma, hc, hsc, List.takeWhile_cons, hih]

/-! ## C1: publication-date fallback -/

/-- C1 counterexample: the claim says that when the structured year field is
absent the publication date falls back to the raw MedlineDate field; in the
code `findtext(".//PubDate/Year", default="Unknown Year")` returns the truthy
string `"Unknown Year"` when the Year element is absent, so the MedlineDate
fallback is never reached.  At year = absent, MedlineDate = "2000 Jan-Feb",
the code yields "Unknown Year" while the claimed behaviour yields
"2000 Jan-Feb". -/
theorem C1_counterexample :
    pub_date none (some "2000 Jan-Feb") = "Unknown Year" ∧
    pub_date_spec none (some "2000 Jan-Feb") = "2000 Jan-Feb" ∧
    pub_date none (some "2000 Jan-Feb") ≠ pub_date_spec none (some "2000 Jan-Feb") := by
  refine ⟨by decide, rfl, by decide⟩

/-- C1 amended: the Publication Date field equals the Year element's text
when that element is present with non-empty text; when the Year element is
absent it is the sentinel "Unknown Year" regardless of MedlineDate; when the
Year element is present but empty it falls back to the MedlineDate text,
defaulting to "" (not "Unknown Year") when MedlineDate is absent.  The
EnrichedPaper field is exactly this computation. -/
theorem C1_pub_date_amended (year medlineDate : Option String) :
    (pub_date year medlineDate =
      match year with
      | some y => if y = "" then findtextD medlineDate "" else y
      | none => "Unknown Year") ∧
    ∀ (oracle : List String → List String) (pmid : String) (article : Article),
      (enrich oracle pmid article).pubDate = pub_date article.year article.medlineDate := by
  constructor
  · cases year with
    | none => simp [pub_date, findtextD]
    | some y => by_cases hy : y = "" <;> simp [pub_date, findtextD, hy]
  · intro _ _ _
    rfl

/-! ## C2: output stage on the empty input -/

/-- C2 counterexample: on the empty input `save_to_csv` does raise an error
(`papers[0]` raises IndexError), but `open(filename, mode='w')` has already
created/truncated the output file, so an empty file exists on disk — the
claim's "no headerless or empty file is created" is false. -/
theorem C2_counterexample :
    (save_to_csv []).2 = Except.error CsvError.indexError ∧
    (save_to_csv []).1 = some "" ∧
    (save_to_csv []).1 ≠ none := by
  refine ⟨rfl, rfl, ?_⟩
  intro h
  simp [save_to_csv] at h

/-- C2 amended: on the empty input the output stage signals an error
(an uncaught IndexError from `papers[0]`), but the output file has already
been opened with mode "w", leaving an empty (zero-byte) file on disk; on any
non-empty input the full file (header plus all rows) is written and the call
succeeds. -/
theorem C2_save_to_csv (papers : List Paper) :
    (papers = [] →
      save_to_csv papers = (some "", Except.error CsvError.indexError)) ∧
    (papers ≠ [] →
      save_to_csv papers = (some (renderCsv papers), Except.ok ())) := by
  cases papers with
  | nil => exact ⟨fun _ => rfl, fun h => absurd rfl h⟩
  | cons p ps => exact ⟨fun h => List.noConfusion h, fun _ => rfl⟩

/-- Witness for the amended C2 theorem at the empty input and at a singleton
input. -/
theorem C2_witness :
    save_to_csv [] = (some "", Except.error CsvError.indexError) ∧
    save_to_csv [demoPaper] = (some (renderCsv [demoPaper]), Except.ok ()) :=
  ⟨(C2_save_to_csv []).1 rfl, (C2_save_to_csv [demoPaper]).2 (by simp)⟩

/-! ## C5: the keyword heuristic -/

/-- C5: `is_company_affiliation` (the spec's `is_non_academic`) returns
`false` exactly when the lowercased input contains one of the eight academic
keywords as a substring; any input containing "University" in any letter
case yields `false`; any input containing none of the keywords
(case-insensitively) yields `true`. -/
theorem C5_is_company_affiliation (aff : String) :
    (is_company_affiliation aff = false ↔
      ∃ kw ∈ academic_keywords, kw.data <:+: pylower aff.data) ∧
    (∀ v : List Char, pylower v = "university".data → v <:+: aff.data →
      is_company_affiliation aff = false) ∧
    ((∀ kw ∈ academic_keywords, ¬ kw.data <:+: pylower aff.data) →
      is_company_affiliation aff = true) := by
  have h1 : is_company_affiliation aff = false ↔
      ∃ kw ∈ academic_keywords, kw.data <:+: pylower aff.data := by
    simp [is_company_affiliation, List.any_eq_true]
  refine ⟨h1, ?_, ?_⟩
  · intro v hv hinf
    refine h1.mpr ⟨"university", by simp [academic_keywords], ?_⟩
    obtain ⟨s, t, hst⟩ := hinf
    refine ⟨pylower s, pylower t, ?_⟩
    calc pylower s ++ "university".data ++ pylower t
        = pylower s ++ pylower v ++ pylower t := by rw [hv]
      _ = pylower (s ++ v ++ t) := by simp [pylower]
      _ = pylower aff.data := by rw [hst]
  · intro h
    cases hb : is_company_affiliation aff with
    | true => rfl
    | false =>
      obtain ⟨kw, hkw, hi⟩ := h1.mp hb
      exact absurd hi (h kw hkw)

/-- Witness for C5: a string containing "UNIVERSITY" classifies as academic,
a keyword-free string classifies as a company. -/
theorem C5_witness :
    is_company_affiliation "Acme UNIVERSITY Labs" = false ∧
    is_company_affiliation "Acme Corp" = true :=
  ⟨(C5_is_company_affiliation "Acme UNIVERSITY Labs").2.1 "UNIVERSITY".data
      (by decide) (by decide),
   (C5_is_company_affiliation "Acme Corp").2.2 (by decide)⟩

/-! ## C8: company-name extraction -/

/-- C8: `extract_company_name` returns the first comma-separated segment
completely unmodified (a comma-free string is returned whole), and
`extract_company_name "Acme Corp, New York, NY" = "Acme Corp"`. -/
theorem C8_extract_company_name (s t : String) (h : ',' ∉ s.data) :
    extract_company_name (s ++ "," ++ t) = s ∧
    extract_company_name s = s ∧
    extract_company_name "Acme Corp, New York, NY" = "Acme Corp" := by
  have hall : ∀ x ∈ s.data, (x != ',') = true := by
    intro x hx
    simp only [bne_iff_ne, ne_eq]
    intro hc
    exact h (hc ▸ hx)
  refine ⟨?_, ?_, by decide⟩
  · show String.mk ((splitComma (s ++ "," ++ t).data).headD []) = s
    rw [splitComma_head]
    have hdata : (s ++ "," ++ t).data = s.data ++ ',' :: t.data := by
      rw [String.data_append, String.data_append, List.append_assoc]
      rfl
    rw [hdata, takeWhile_all_append _ _ _ hall]
    simp [List.takeWhile_cons]
  · show String.mk ((splitComma s.data).headD []) = s
    rw [splitComma_head]
    have : s.data ++ ([] : List Char) = s.data := List.append_nil _
    rw [← this, takeWhile_all_append _ _ _ hall]
    simp

/-- Witness for C8 at a concrete affiliation. -/
theorem C8_witness :
    extract_company_name ("Acme Corp" ++ "," ++ " New York") = "Acme Corp" ∧
    extract_company_name "Acme Corp" = "Acme Corp" ∧
    extract_company_name "Acme Corp, New York, NY" = "Acme Corp" :=
  C8_extract_company_name "Acme Corp" " New York" (by decide)

/-! ## C10: the retmax bound -/

/-- C10: `search_pubmed` defaults `retmax` to 20 and `main` calls it with the
default, so — assuming the remote endpoint honours the requested maximum —
the identifier list and hence the output report never cover more than 20
records. -/
theorem C10_retmax (remote : String → Nat → List String)
    (db : String → Option Article) (oracle : List String → List String)
    (query : String)
    (hremote : ∀ q n, (remote q n).length ≤ n) :
    (search_pubmed remote query).length ≤ 20 ∧
    (main_papers remote db oracle query).length ≤ 20 := by
  have h1 : (search_pubmed remote query).length ≤ 20 := hremote query 20
  refine ⟨h1, le_trans ?_ h1⟩
  exact List.length_filterMap_le _ _

/-- Witness for C10 with a trivially bounded remote endpoint. -/
theorem C10_witness :
    (search_pubmed (fun _ _ => ([] : List String)) "cancer AND immunotherapy").length ≤ 20 ∧
    (main_papers (fun _ _ => ([] : List String)) (fun _ => none) dedupOracle
      "cancer AND immunotherapy").length ≤ 20 :=
  C10_retmax _ _ _ _ (fun _ n => by simp)

/-! ## The email matcher: soundness and completeness -/

lemma drop_eq_cons_of_getElem {α : Type} :
    ∀ (l : List α) (n : Nat) (x : α), l[n]? = some x →
      l.drop n = x :: l.drop (n + 1)
  | [], n, x, h => by simp at h
  | a :: l, 0, x, h => by
    simp at h
    simp [h]
  | a :: l, n + 1, x, h => by
    rw [List.getElem?_cons_succ] at h
    simpa using drop_eq_cons_of_getElem l n x h

lemma tryDot_sound (rest : List Char) (j : Nat) (m : List Char)
    (hj1 : 1 ≤ j) (hjb : j + 1 ≤ (rest.takeWhile isBchar).length)
    (h : tryDot rest j = some m) :
    ∃ b c post', rest = b ++ '.' :: (c ++ post') ∧ b.length = j ∧
      (∀ x ∈ b, isBchar x = true) ∧ 2 ≤ c.length ∧
      (∀ x ∈ c, isCchar x = true) ∧ m = b ++ '.' :: c := by
  unfold tryDot at h
  by_cases hdot : rest[j]? = some '.'
  · rw [if_pos hdot] at h
    by_cases hlen : 2 ≤ ((rest.drop (j + 1)).takeWhile isCchar).length
    · rw [if_pos hlen] at h
      injection h with h
      have hjlen : j < rest.length := (List.getElem?_eq_some.mp hdot).1
      have hsplit : rest = rest.take j ++ '.' :: rest.drop (j + 1) := by
        conv_lhs => rw [← List.take_append_drop j rest]
        rw [drop_eq_cons_of_getElem rest j '.' hdot]
      refine ⟨rest.take j, (rest.drop (j + 1)).takeWhile isCchar,
        (rest.drop (j + 1)).dropWhile isCchar, ?_, ?_, ?_, hlen, ?_, ?_⟩
      · rw [List.takeWhile_append_dropWhile]
        exact hsplit
      · rw [List.length_take]
        omega
      · exact mem_take_pred isBchar rest j (by omega)
      · exact fun x hx => mem_takeWhile_pred isCchar _ x hx
      · rw [← h, List.take_succ, hdot]
        simp
    · rw [if_neg hlen] at h
      exact absurd h (by simp)
  · rw [if_neg hdot] at h
    exact absurd h (by simp)

lemma tryDots_sound (rest : List Char) :
    ∀ (jmax : Nat) (m : List Char), tryDots rest jmax = some m →
      ∃ j, 1 ≤ j ∧ j ≤ jmax ∧ tryDot rest j = some m
  | 0, m, h => by simp [tryDots] at h
  | jmax + 1, m, h => by
    rw [tryDots] at h
    cases htd : tryDot rest (jmax + 1) with
    | some m0 =>
      rw [htd] at h
      injection h with h
      exact ⟨jmax + 1, by omega, le_refl _, by rw [htd, h]⟩
    | none =>
      rw [htd] at h
      obtain ⟨j, hj1, hjm, hj⟩ := tryDots_sound rest jmax m h
      exact ⟨j, hj1, by omega, hj⟩

lemma tryDot_complete (b c post' : List Char) (hb : b ≠ [])
    (hballl : ∀ x ∈ b, isBchar x = true) (hc2 : 2 ≤ c.length)
    (hcall : ∀ x ∈ c, isCchar x = true) :
    (tryDot (b ++ '.' :: (c ++ post')) b.length).isSome := by
  have hdot : (b ++ '.' :: (c ++ post'))[b.length]? = some '.' :=
    getElem?_append_len b '.' (c ++ post')
  have hdrop : (b ++ '.' :: (c ++ post')).drop (b.length + 1) = c ++ post' := by
    have h2 : b ++ '.' :: (c ++ post') = (b ++ ['.']) ++ (c ++ post') := by simp
    rw [h2, show b.length + 1 = (b ++ ['.']).length by simp, List.drop_left]
  have hclen :
      2 ≤ (((b ++ '.' :: (c ++ post')).drop (b.length + 1)).takeWhile isCchar).length := by
    rw [hdrop]
    exact le_trans hc2 (length_le_takeWhile_append isCchar c post' hcall)
  unfold tryDot
  rw [hdot, if_pos rfl, if_pos hclen]
  simp

lemma tryDots_complete (rest : List Char) :
    ∀ (jmax j : Nat), 1 ≤ j → j ≤ jmax → (tryDot rest j).isSome →
      (tryDots rest jmax).isSome
  | 0, j, hj1, hjm, _ => by omega
  | jmax + 1, j, hj1, hjm, hsome => by
    rw [tryDots]
    cases htd : tryDot rest (jmax + 1) with
    | some m0 => simp
    | none =>
      show (tryDots rest jmax).isSome
      by_cases hje : j = jmax + 1
      · rw [hje, htd] at hsome
        simp at hsome
      · exact tryDots_complete rest jmax j hj1 (by omega) hsome

lemma matchFrom_sound (s m : List Char) (h : matchFrom s = some m) :
    (∃ post, s = m ++ post) ∧ EmailPattern m := by
  unfold matchFrom at h
  by_cases he : (s.takeWhile isAchar).isEmpty
  · rw [if_pos he] at h
    exact absurd h (by simp)
  · rw [if_neg he] at h
    cases hdw : s.dropWhile isAchar with
    | nil =>
      rw [hdw] at h
      exact absurd h (by simp)
    | cons c rest =>
      rw [hdw] at h
      have h2 : (if c = '@' then
          (match tryDots rest ((rest.takeWhile isBchar).length - 1) with
            | some tail => some (s.takeWhile isAchar ++ '@' :: tail)
            | none => none)
          else none) = some m := h
      by_cases hc : c = '@'
      · rw [if_pos hc] at h2
        cases htd : tryDots rest ((rest.takeWhile isBchar).length - 1) with
        | none =>
          rw [htd] at h2
          exact absurd h2 (by simp)
        | some tail =>
          rw [htd] at h2
          injection h2 with h2
          obtain ⟨j, hj1, hjm, hjd⟩ :=
            tryDots_sound rest ((rest.takeWhile isBchar).length - 1) tail htd
          have hblen : j + 1 ≤ (rest.takeWhile isBchar).length := by omega
          obtain ⟨b, cc, post', hrest, hbl, hballl, hcc2, hccall, hm⟩ :=
            tryDot_sound rest j tail hj1 hblen hjd
          subst hc
          have hs : s = s.takeWhile isAchar ++ '@' :: rest := by
            conv_lhs => rw [← List.takeWhile_append_dropWhile isAchar s]
            rw [hdw]
          constructor
          · refine ⟨post', ?_⟩
            calc s = s.takeWhile isAchar ++ '@' :: rest := hs
              _ = s.takeWhile isAchar ++ '@' :: (b ++ '.' :: (cc ++ post')) := by
                  rw [hrest]
              _ = (s.takeWhile isAchar ++ '@' :: (b ++ '.' :: cc)) ++ post' := by
                  simp [List.append_assoc]
              _ = m ++ post' := by rw [← h2, hm]
          · refine ⟨s.takeWhile isAchar, b, cc, ?_, ?_, ?_, ?_, hballl, hcc2, hccall⟩
            · rw [← h2, hm]
            · intro hnil
              rw [hnil] at he
              exact he rfl
            · exact fun x hx => mem_takeWhile_pred isAchar s x hx
            · exact List.ne_nil_of_length_pos (by omega)
      · rw [if_neg hc] at h2
        exact absurd h2 (by simp)

lemma matchFrom_complete_aux (a r : List Char) (ha : a ≠ [])
    (halla : ∀ x ∈ a, isAchar x = true)
    (hts : (tryDots r ((r.takeWhile isBchar).length - 1)).isSome) :
    (matchFrom (a ++ '@' :: r)).isSome := by
  have h1 : isAchar '@' = false := by decide
  have harun : (a ++ '@' :: r).takeWhile isAchar = a := by
    rw [takeWhile_all_append isAchar a ('@' :: r) halla, List.takeWhile_cons, h1]
    simp
  have hdrop : (a ++ '@' :: r).dropWhile isAchar = '@' :: r := by
    rw [dropWhile_all_append isAchar a ('@' :: r) halla, List.dropWhile_cons, h1]
    simp
  have hae : a.isEmpty = false := by
    cases a with
    | nil => exact absurd rfl ha
    | cons x xs => rfl
  obtain ⟨tail, htail⟩ := Option.isSome_iff_exists.mp hts
  unfold matchFrom
  rw [harun, hdrop, if_neg (by simp [hae])]
  show (if '@' = '@' then
      (match tryDots r ((r.takeWhile isBchar).length - 1) with
        | some tail => some (a ++ '@' :: tail)
        | none => none)
      else none).isSome = true
  rw [if_pos rfl, htail]
  simp

lemma matchFrom_complete (m post s : List Char) (hm : EmailPattern m)
    (hs : s = m ++ post) : (matchFrom s).isSome := by
  obtain ⟨a, b, c, hme, ha, halla, hb, hallb, hc2, hallc⟩ := hm
  have hr : s = a ++ '@' :: (b ++ '.' :: (c ++ post)) := by
    rw [hs, hme]
    simp [List.append_assoc]
  rw [hr]
  apply matchFrom_complete_aux a (b ++ '.' :: (c ++ post)) ha halla
  have hball : ∀ x ∈ b ++ ['.'], isBchar x = true := by
    intro x hx
    rcases List.mem_append.mp hx with hxx | hxx
    · exact hallb x hxx
    · rw [List.mem_singleton.mp hxx]
      decide
  have hjb : b.length + 1 ≤ ((b ++ '.' :: (c ++ post)).takeWhile isBchar).length := by
    have h2 : b ++ '.' :: (c ++ post) = (b ++ ['.']) ++ (c ++ post) := by simp
    calc b.length + 1 = (b ++ ['.']).length := by simp
      _ ≤ (((b ++ ['.']) ++ (c ++ post)).takeWhile isBchar).length :=
          length_le_takeWhile_append isBchar (b ++ ['.']) (c ++ post) hball
      _ = ((b ++ '.' :: (c ++ post)).takeWhile isBchar).length := by rw [← h2]
  exact tryDots_complete (b ++ '.' :: (c ++ post)) _ b.length
    (List.length_pos.mpr hb) (by omega)
    (tryDot_complete b c post hb hallb hc2 hallc)

lemma findEmail_sound :
    ∀ (s m : List Char), findEmail s = some m →
      ∃ pre post, s = pre ++ m ++ post ∧ EmailPattern m ∧
        ∀ pre' m' post', s = pre' ++ m' ++ post' → EmailPattern m' →
          pre.length ≤ pre'.length
  | [], m, h => by simp [findEmail] at h
  | c :: cs, m, h => by
    rw [findEmail] at h
    cases hmf : matchFrom (c :: cs) with
    | some m0 =>
      rw [hmf] at h
      injection h with h
      subst h
      obtain ⟨⟨post, hpost⟩, hpat⟩ := matchFrom_sound (c :: cs) m0 hmf
      exact ⟨[], post, by simpa using hpost, hpat,
        fun pre' m' post' _ _ => Nat.zero_le _⟩
    | none =>
      rw [hmf] at h
      obtain ⟨pre, post, hdec, hpat, hmin⟩ := findEmail_sound cs m h
      refine ⟨c :: pre, post, by simp [hdec], hpat, ?_⟩
      intro pre' m' post' hdec' hpat'
      cases pre' with
      | nil =>
        exfalso
        have hcomp := matchFrom_complete m' post' (c :: cs) hpat' (by simpa using hdec')
        rw [hmf] at hcomp
        simp at hcomp
      | cons c' pre'' =>
        rw [List.cons_append, List.cons_append] at hdec'
        injection hdec' with hd1 hd2
        simp only [List.length_cons]
        exact Nat.succ_le_succ (hmin pre'' m' post' hd2 hpat')

lemma findEmail_complete :
    ∀ (pre m post s : List Char), s = pre ++ m ++ post → EmailPattern m →
      (findEmail s).isSome
  | [], m, post, s, hs, hm => by
    have hmf := matchFrom_complete m post s hm (by simpa using hs)
    obtain ⟨m0, hm0⟩ := Option.isSome_iff_exists.mp hmf
    cases s with
    | nil => simp [matchFrom] at hm0
    | cons c cs => simp [findEmail, hm0]
  | c :: pre', m, post, s, hs, hm => by
    subst hs
    have hih := findEmail_complete pre' m post (pre' ++ m ++ post) rfl hm
    show (findEmail (c :: (pre' ++ m ++ post))).isSome
    rw [findEmail]
    cases hmf : matchFrom (c :: (pre' ++ m ++ post)) with
    | some m0 => simp
    | none => exact hih

lemma emailPattern_has_at (m : List Char) (h : EmailPattern m) : '@' ∈ m := by
  obtain ⟨a, b, c, hme, _⟩ := h
  rw [hme]
  simp

lemma emailPattern_ne_nil (m : List Char) (h : EmailPattern m) : m ≠ [] := by
  obtain ⟨a, b, c, hme, ha, _⟩ := h
  rw [hme]
  simp

/-! ## C9: email extraction -/

/-- C9: `extract_email` returns verbatim the match found at the leftmost
position at which any substring fitting the pattern
`[a-zA-Z0-9._%+-]+@[a-zA-Z0-9.-]+\.[a-zA-Z]{2,}` begins, and returns the
sentinel "Not found" exactly when no substring of the input fits the
pattern; in particular the two examples of the specification hold. -/
theorem C9_extract_email (aff : String) :
    (∀ m : List Char, findEmail aff.data = some m →
      extract_email aff = String.mk m ∧ EmailPattern m ∧
      ∃ pre post, aff.data = pre ++ m ++ post ∧
        ∀ pre' m' post', aff.data = pre' ++ m' ++ post' → EmailPattern m' →
          pre.length ≤ pre'.length) ∧
    (extract_email aff = "Not found" ↔
      ¬ ∃ m, EmailPattern m ∧ m <:+: aff.data) ∧
    extract_email "Acme Corp, New York" = "Not found" ∧
    extract_email "Dept of X, Acme Corp, contact: jane.doe@acme.com"
      = "jane.doe@acme.com" := by
  refine ⟨?_, ?_, by rfl, by rfl⟩
  · intro m hm
    refine ⟨by simp [extract_email, hm], ?_, ?_⟩
    · exact (findEmail_sound aff.data m hm).choose_spec.choose_spec.2.1
    · obtain ⟨pre, post, hdec, _, hmin⟩ := findEmail_sound aff.data m hm
      exact ⟨pre, post, hdec, hmin⟩
  · constructor
    · rintro hnf ⟨m, hpat, s, t, hst⟩
      have hsome := findEmail_complete s m t aff.data hst.symm hpat
      obtain ⟨m0, hm0⟩ := Option.isSome_iff_exists.mp hsome
      have hnf2 : String.mk m0 = "Not found" := by
        rw [extract_email, hm0] at hnf
        exact hnf
      obtain ⟨_, _, _, hpat0, _⟩ := findEmail_sound aff.data m0 hm0
      have hat : '@' ∈ m0 := emailPattern_has_at m0 hpat0
      have hdata : m0 = "Not found".data := congrArg String.data hnf2
      rw [hdata] at hat
      exact absurd hat (by decide)
    · intro hno
      cases hfe : findEmail aff.data with
      | none => simp [extract_email, hfe]
      | some m =>
        exfalso
        obtain ⟨pre, post, hdec, hpat, _⟩ := findEmail_sound aff.data m hfe
        exact hno ⟨m, hpat, pre, post, hdec.symm⟩

/-- Witness for C9: the leftmost-match clause applied at a concrete input. -/
theorem C9_witness :
    extract_email "x a@b.cd" = String.mk "a@b.cd".data ∧
    EmailPattern "a@b.cd".data :=
  ⟨((C9_extract_email "x a@b.cd").1 "a@b.cd".data rfl).1,
   ((C9_extract_email "x a@b.cd").1 "a@b.cd".data rfl).2.1⟩
/-! ## C4: the first-email-wins rule -/

lemma procClass_email (st : LoopState) (a : Author) :
    (procClass st a).email = st.email := by
  unfold procClass
  split <;> rfl

lemma processAuthor_email_of_set (st : LoopState) (a : Author)
    (h : st.email ≠ "Not found") : (processAuthor st a).email = st.email := by
  by_cases ha : a.aff ≠ ""
  · rw [processAuthor, if_pos ha, procEmail]
    by_cases hc : a.aff.data.contains '@' ∧ (procClass st a).email = "Not found"
    · exact absurd (by rw [← procClass_email st a]; exact hc.2) h
    · rw [if_neg hc, procClass_email]
  · rw [processAuthor, if_neg ha]

lemma foldl_email_of_set :
    ∀ (l : List Author) (st : LoopState), st.email ≠ "Not found" →
      (l.foldl processAuthor st).email = st.email
  | [], _, _ => rfl
  | a :: l, st, h => by
    rw [List.foldl_cons,
      foldl_email_of_set l (processAuthor st a)
        (by rw [processAuthor_email_of_set st a h]; exact h)]
    exact processAuthor_email_of_set st a h

lemma foldl_email_find :
    ∀ (l : List Author) (st : LoopState), st.email = "Not found" →
      (l.foldl processAuthor st).email =
        (match l.find? emailCandidate with
          | some a => extract_email a.aff
          | none => "Not found")
  | [], _, h => h
  | a :: l, st, h => by
    rw [List.foldl_cons]
    by_cases hc : emailCandidate a = true
    · rw [List.find?_cons_of_pos _ hc]
      simp only [emailCandidate, Bool.and_eq_true, bne_iff_ne, ne_eq] at hc
      obtain ⟨⟨hne, hat⟩, hex⟩ := hc
      have h1 : (processAuthor st a).email = extract_email a.aff := by
        rw [processAuthor, if_pos hne, procEmail,
          if_pos ⟨hat, by rw [procClass_email]; exact h⟩]
      rw [foldl_email_of_set l _ (by rw [h1]; exact hex), h1]
    · rw [List.find?_cons_of_neg _ hc]
      apply foldl_email_find l
      simp only [emailCandidate, Bool.and_eq_true, bne_iff_ne, ne_eq, not_and,
        Decidable.not_not] at hc
      by_cases hne : a.aff ≠ ""
      · rw [processAuthor, if_pos hne, procEmail]
        by_cases hcond : a.aff.data.contains '@' ∧ (procClass st a).email = "Not found"
        · rw [if_pos hcond]
          exact hc ⟨hne, hcond.1⟩
        · rw [if_neg hcond, procClass_email]
          exact h
      · rw [processAuthor, if_neg hne]
        exact h

/-- C4: during one record's enrichment the email field holds the value
extracted from the first author (in traversal order) whose non-empty
affiliation contains an `@` and on which the extraction succeeds — the
sentinel "Not found" when there is no such author — and once the field is
set to anything other than the sentinel no later author ever changes it.
(The guard `emailCandidate` requires the `@`, so authors whose affiliation
lacks an `@` are never consulted, independently of their classification.) -/
theorem C4_corresponding_email (authors : List Author) :
    ((authors.foldl processAuthor initState).email =
      match authors.find? emailCandidate with
      | some a => extract_email a.aff
      | none => "Not found") ∧
    ∀ (st : LoopState) (l : List Author), st.email ≠ "Not found" →
      (l.foldl processAuthor st).email = st.email :=
  ⟨foldl_email_find authors initState rfl,
   fun st l h => foldl_email_of_set l st h⟩

/-- Witness for C4: on the two-author record the first (and only) email is
recorded, and a state whose email is already set is never overwritten. -/
theorem C4_witness :
    ([demoAuthor1, demoAuthor2].foldl processAuthor initState).email
      = "jane@acme.com" ∧
    (([demoAuthor1, demoAuthor2].foldl processAuthor
        { non_academic_authors := [], company_affiliations := [],
          email := "a@b.cd" }).email = "a@b.cd") := by
  constructor
  · rw [(C4_corresponding_email [demoAuthor1, demoAuthor2]).1]
    rfl
  · exact (C4_corresponding_email []).2 _ [demoAuthor1, demoAuthor2] (by decide)

/-! ## C6, C7, C3: the enrichment loop and its determinism -/

lemma dedupOracle_setOrder : SetOrder dedupOracle := fun l =>
  ⟨List.nodup_dedup l, fun s => List.mem_dedup⟩

lemma revDedupOracle_setOrder : SetOrder revDedupOracle := fun l =>
  ⟨List.nodup_reverse.mpr (List.nodup_dedup l),
   fun s => by simp [revDedupOracle, List.mem_reverse, List.mem_dedup]⟩

lemma setOrder_singleton (o : List String → List String) (h : SetOrder o)
    (x : String) : o [x] = [x] := by
  obtain ⟨hnd, hmem⟩ := h [x]
  cases hol : o [x] with
  | nil =>
    have hx : x ∈ o [x] := (hmem x).mpr (by simp)
    rw [hol] at hx
    exact absurd hx (List.not_mem_nil x)
  | cons a t =>
    have ha : a = x := by
      have haa : a ∈ o [x] := by rw [hol]; simp
      simpa using (hmem a).mp haa
    cases t with
    | nil => rw [ha]
    | cons b t' =>
      have hb : b = x := by
        have hbb : b ∈ o [x] := by rw [hol]; simp
        simpa using (hmem b).mp hbb
      rw [hol, ha, hb] at hnd
      simp at hnd

/-- C6: on a record with exactly two authors, the first affiliated with
"City General Hospital" and the second with
"Acme Biotech Inc, jane@acme.com", the enriched row lists only the second
author's display name as non-academic, "Acme Biotech Inc" as the company,
and "jane@acme.com" as the corresponding email — for any admissible set
iteration order, since the company set is a singleton. -/
theorem C6_two_author_record (oracle : List String → List String)
    (h : SetOrder oracle) :
    enrich oracle "42" demoArticle = demoEnriched := by
  have hcomp : (demoArticle.authors.foldl processAuthor initState).company_affiliations
      = ["Acme Biotech Inc"] := by decide
  have ho : oracle ["Acme Biotech Inc"] = ["Acme Biotech Inc"] :=
    setOrder_singleton oracle h _
  unfold enrich
  rw [hcomp, ho]
  rfl

/-- Witness for C6 with the insertion-order set oracle. -/
theorem C6_witness : enrich dedupOracle "42" demoArticle = demoEnriched :=
  C6_two_author_record dedupOracle dedupOracle_setOrder

lemma procEmail_nonAcad (st : LoopState) (a : Author) :
    (procEmail st a).non_academic_authors = st.non_academic_authors := by
  unfold procEmail
  split <;> rfl

lemma processAuthor_nonAcad (st : LoopState) (a : Author) :
    (processAuthor st a).non_academic_authors = st.non_academic_authors ∨
    (a.aff ≠ "" ∧ (processAuthor st a).non_academic_authors
      = st.non_academic_authors ++ [fullname a]) := by
  by_cases ha : a.aff ≠ ""
  · rw [processAuthor, if_pos ha, procEmail_nonAcad]
    unfold procClass
    by_cases hcl : is_company_affiliation a.aff
    · rw [if_pos hcl]
      exact Or.inr ⟨ha, rfl⟩
    · rw [if_neg hcl]
      exact Or.inl rfl
  · rw [processAuthor, if_neg ha]
    exact Or.inl rfl

lemma foldl_nonAcad_subset :
    ∀ (l : List Author) (st : LoopState) (name : String),
      name ∈ (l.foldl processAuthor st).non_academic_authors →
      name ∈ st.non_academic_authors ∨ ∃ au ∈ l, au.aff ≠ "" ∧ name = fullname au
  | [], _, _, h => Or.inl h
  | a :: l, st, name, h => by
    rw [List.foldl_cons] at h
    rcases foldl_nonAcad_subset l (processAuthor st a) name h with h1 | h1
    · rcases processAuthor_nonAcad st a with h2 | ⟨hne, h2⟩
      · rw [h2] at h1
        exact Or.inl h1
      · rw [h2] at h1
        rcases List.mem_append.mp h1 with h3 | h3
        · exact Or.inl h3
        · exact Or.inr ⟨a, by simp, hne, List.mem_singleton.mp h3⟩
    · obtain ⟨au, hau, hne, hn⟩ := h1
      exact Or.inr ⟨au, by simp [hau], hne, hn⟩

lemma fetch_details_map_id (db : String → Option Article)
    (oracle : List String → List String) :
    ∀ ids : List String, (fetch_details db oracle ids).map Paper.pubmedID =
      ids.filter (fun i => (db i).isSome)
  | [] => rfl
  | i :: t => by
    rw [fetch_details, List.filterMap_cons, List.filter_cons]
    cases hdb : db i with
    | none => simpa [hdb] using fetch_details_map_id db oracle t
    | some art =>
      simp [hdb]
      exact ⟨rfl, fetch_details_map_id db oracle t⟩

/-- C7: Record Enrichment yields exactly one row per identifier that
resolves, in identifier order (the list of PubmedID fields equals the
resolving identifiers in order); unresolving identifiers are silently
skipped; and every name in any row's non-academic author list is the
display name of one of that record's authors with a non-empty affiliation. -/
theorem C7_enrichment_shape (db : String → Option Article)
    (oracle : List String → List String) (ids : List String) :
    ((fetch_details db oracle ids).map Paper.pubmedID =
      ids.filter (fun i => (db i).isSome)) ∧
    ∀ p ∈ fetch_details db oracle ids, ∃ art, db p.pubmedID = some art ∧
      p = enrich oracle p.pubmedID art ∧
      ∀ name,
        name ∈ (art.authors.foldl processAuthor initState).non_academic_authors →
        ∃ au ∈ art.authors, au.aff ≠ "" ∧ name = fullname au := by
  refine ⟨fetch_details_map_id db oracle ids, ?_⟩
  intro p hp
  rw [fetch_details] at hp
  obtain ⟨i, hi, hf⟩ := List.mem_filterMap.mp hp
  cases hdb : db i with
  | none =>
    rw [hdb] at hf
    simp at hf
  | some art =>
    rw [hdb] at hf
    simp only [Option.map_some', Option.some.injEq] at hf
    have hpm : p.pubmedID = i := by rw [← hf]; rfl
    refine ⟨art, by rw [hpm, hdb], by rw [hpm, ← hf], ?_⟩
    intro name hname
    rcases foldl_nonAcad_subset art.authors initState name hname with h | h
    · simp [initState] at h
    · exact h

/-- Witness for C7 at a concrete one-identifier data set. -/
theorem C7_witness :
    ∃ art, demoDb demoEnriched.pubmedID = some art ∧
      demoEnriched = enrich dedupOracle demoEnriched.pubmedID art ∧
      ∀ name,
        name ∈ (art.authors.foldl processAuthor initState).non_academic_authors →
        ∃ au ∈ art.authors, au.aff ≠ "" ∧ name = fullname au :=
  (C7_enrichment_shape demoDb dedupOracle ["42"]).2 demoEnriched (by decide)

/-- C3 counterexample: the claim asserts byte-identical output across two
runs on an unchanged data set; the joined company field is
`", ".join(set(company_affiliations))`, and CPython's per-process string
hash randomization leaves the set iteration order unspecified across runs.
Both `dedupOracle` and `revDedupOracle` are admissible iteration orders of
the same set, yet on a record with two distinct company names they yield
different bytes. -/
theorem C3_counterexample :
    SetOrder dedupOracle ∧ SetOrder revDedupOracle ∧
    fetch_details cexDb dedupOracle ["9"] ≠ fetch_details cexDb revDedupOracle ["9"] :=
  ⟨dedupOracle_setOrder, revDedupOracle_setOrder, by decide⟩

lemma enrich_paperSim (o1 o2 : List String → List String)
    (h1 : SetOrder o1) (h2 : SetOrder o2) (pmid : String) (art : Article) :
    PaperSim (enrich o1 pmid art) (enrich o2 pmid art) := by
  refine ⟨rfl, rfl, rfl, rfl, rfl,
    o1 (art.authors.foldl processAuthor initState).company_affiliations,
    o2 (art.authors.foldl processAuthor initState).company_affiliations,
    ?_, rfl, rfl⟩
  obtain ⟨hn1, hm1⟩ := h1 (art.authors.foldl processAuthor initState).company_affiliations
  obtain ⟨hn2, hm2⟩ := h2 (art.authors.foldl processAuthor initState).company_affiliations
  exact (List.perm_ext_iff_of_nodup hn1 hn2).mpr fun a => (hm1 a).trans (hm2 a).symm

/-- C3 amended: two runs on the same identifier list and unchanged data set
produce row sequences of the same length that agree byte-for-byte on every
field except Company Affiliation(s), whose two values join the same
underlying set of company names in possibly different orders (hence the
output is byte-identical whenever every record has at most one distinct
company name). -/
theorem C3_amended (db : String → Option Article)
    (o1 o2 : List String → List String) (ids : List String)
    (h1 : SetOrder o1) (h2 : SetOrder o2) :
    List.Forall₂ PaperSim (fetch_details db o1 ids) (fetch_details db o2 ids) := by
  induction ids with
  | nil => exact List.Forall₂.nil
  | cons i t ih =>
    simp only [fetch_details, List.filterMap_cons]
    cases hdb : db i with
    | none =>
      simp only [Option.map_none']
      exact ih
    | some art =>
      simp only [Option.map_some']
      exact List.Forall₂.cons (enrich_paperSim o1 o2 h1 h2 i art) ih

/-- Witness for the amended C3 theorem at two concrete admissible set
iteration orders. -/
theorem C3_witness :
    List.Forall₂ PaperSim (fetch_details cexDb dedupOracle ["9"])
      (fetch_details cexDb revDedupOracle ["9"]) :=
  C3_amended cexDb dedupOracle revDedupOracle ["9"]
    dedupOracle_setOrder revDedupOracle_setOrder
